import Mathlib

/-!
Verification of the CodeJar editor core (antonmedv/codejar).

The development shallowly embeds the editor's caret-position codec
(`save` / `restore`), its key handlers (`handleNewLine`,
`handleSelfClosingCharacters`, `handlePaste`), its mutation engine
(`insert`), and its history manager (`recordHistory`, undo/redo) in Lean.

Modelling conventions, stated once here and referenced below:

* JS strings are modelled as `List Char` (`Str`); offsets count characters.
* The editable region's DOM subtree is modelled by the list of its text
  nodes in document order (`nodes : List Str`).  Element nodes contribute
  zero width and are transparent to both walks in `save` and `restore`
  (the `visit` callback in `save` adds length only for
  `Node.TEXT_NODE` and the one in `restore` skips non-text nodes), so the
  element structure is irrelevant to the computed offsets and is elided.
  Selection endpoints are taken at text nodes, as the source expects
  ("Selection anchor and focus are expected to be text nodes"); an
  endpoint is a pair `(i, off)` of a text-node index in document order and
  a character offset inside that node.  Text-node identity (`el ===
  anchorNode`) is modelled by index equality, which is faithful because
  the walk enumerates each node exactly once.
* JS numbers holding offsets are modelled as `Int` where the source can
  see negative values (`Position`), and as `Nat` for lengths.
* JS arrays with assignment beyond the current length (`history[at] =
  record` with `at > history.length`) are modelled as
  `List (Option HistoryRecord)`: a hole is `none`, `history[i]` is
  `histGet`, and out-of-range assignment pads with holes.
* The external highlighter is an opaque function; where a flow invokes
  it (`highlight(editor)`), the model either takes it as an explicit
  parameter or, for text-level flows, uses the fact that a conforming
  highlighter preserves the concatenated text content.
-/

/-- Character-list strings: JS strings are sequences of UTF-16 units,
modelled here as lists of characters. -/
abbrev Str := List Char

namespace CodeJar

/-- Selection direction: `'->'` (fwd) or `'<-'` (bwd), from the
`dir?: '->' | '<-'` field of the source's `Position` type. -/
inductive Dir where
  | fwd
  | bwd
deriving DecidableEq, Repr

/-- The source's `Position` record `{start: number, end: number,
dir?: '->' | '<-'}`.  The `end` field is named `endPos` because `end` is
reserved in Lean. -/
structure Position where
  start : Int
  endPos : Int
  dir : Option Dir := none
deriving DecidableEq, Repr

/-- A selection endpoint: index of a text node in document order and a
character offset within that node. -/
abbrev SelPoint := Nat × Nat

/-- Total character length of a list of text nodes. -/
def totalLen (nodes : List Str) : Nat :=
  (nodes.map List.length).sum

/-- Absolute character offset of the endpoint `(i, off)` over the
concatenated text content: the text length of the nodes before node `i`
plus the offset inside node `i`. -/
def absIdx (nodes : List Str) (i off : Nat) : Nat :=
  totalLen (nodes.take i) + off

/-- Validity of a selection endpoint on a node list: the node exists and
the offset does not exceed its length (DOM allows offset = length). -/
def ValidPoint (nodes : List Str) (p : SelPoint) : Prop :=
  p.1 < nodes.length ∧ p.2 ≤ (nodes.getD p.1 []).length

instance (nodes : List Str) (p : SelPoint) : Decidable (ValidPoint nodes p) := by
  unfold ValidPoint; infer_instance

/-- The text-accumulation step of `save`'s visit callback: for a text
node `t`, `if (pos.dir !== '->') pos.start += el.nodeValue.length` and
`if (pos.dir !== '<-') pos.end += el.nodeValue.length`. -/
def saveAccum (t : Str) (pos : Position) : Position :=
  { pos with
    start := if pos.dir ≠ some Dir.fwd then pos.start + t.length else pos.start
    endPos := if pos.dir ≠ some Dir.bwd then pos.endPos + t.length else pos.endPos }

/-- The walk of `save` (part_002 lines 164-192): `visit(editor, el => ...)`
over the text nodes in document order.  `k` is the index of the current
node; `ai, ao` are the anchor's node index and offset, `fi, fo` the
focus's.  Returning without recursing models `return 'stop'`. -/
def saveLoop : List Str → Nat → Nat → Nat → Nat → Nat → Position → Position
  | [], _, _, _, _, _, pos => pos
  | t :: rest, k, ai, ao, fi, fo, pos =>
    if k = ai ∧ k = fi then
      -- el === anchorNode && el === focusNode: set both, fix dir, stop
      { start := pos.start + ao, endPos := pos.endPos + fo,
        dir := some (if ao ≤ fo then Dir.fwd else Dir.bwd) }
    else if k = ai then
      -- el === anchorNode: pos.start += anchorOffset, then either set
      -- dir = '->' and continue, or stop if dir was already set
      match pos.dir with
      | none =>
        saveLoop rest (k + 1) ai ao fi fo
          (saveAccum t { pos with start := pos.start + ao, dir := some Dir.fwd })
      | some _ => { pos with start := pos.start + ao }
    else if k = fi then
      match pos.dir with
      | none =>
        saveLoop rest (k + 1) ai ao fi fo
          (saveAccum t { pos with endPos := pos.endPos + fo, dir := some Dir.bwd })
      | some _ => { pos with endPos := pos.endPos + fo }
    else
      saveLoop rest (k + 1) ai ao fi fo (saveAccum t pos)

/-- The source's `save()` (part_002 lines 133-196) restricted to the
modelled selections: anchor and focus are text-node endpoints, so the
element-normalisation step and the `anchorNode === editor` shortcut do
not fire.  The trailing `editor.normalize()` merges empty text nodes
after `pos` is computed and does not affect the returned value. -/
def save (nodes : List Str) (a f : SelPoint) : Position :=
  saveLoop nodes 0 a.1 a.2 f.1 f.2 { start := 0, endPos := 0, dir := none }

/-- The direction `save` computes for a selection with anchor
`(ai, ao)` and focus `(fi, fo)`: when both endpoints share a node the
offsets decide (`anchorOffset <= focusOffset ? '->' : '<-'`), otherwise
whichever endpoint the walk meets first fixes the direction. -/
def dirOf (ai ao fi fo : Nat) : Dir :=
  if ai = fi then (if ao ≤ fo then Dir.fwd else Dir.bwd)
  else if ai < fi then Dir.fwd
  else Dir.bwd

/-- The source's `save()` including its guard
`if (!anchorNode || !focusNode) throw 'error1'` (part_002 line 138,
codejar.ts line 137): when the live selection has no anchor or focus
node, `save` throws the string `'error1'`; otherwise it computes the
position.  The thrown value is modelled with `Except`. -/
def saveChecked (sel : Option (SelPoint × SelPoint)) (nodes : List Str) :
    Except String Position :=
  match sel with
  | none => Except.error "error1"
  | some (a, f) => Except.ok (save nodes a f)

/-- The in-place mutation `restore` performs on its `pos` argument
(part_002 lines 203-212): default an unset `dir` to `'->'`, clamp
negative `start`/`end` to 0, and swap `start` and `end` when `dir` is
`'<-'`.  The rest of `restore` only reads `pos`, so this is exactly the
state of the caller's `Position` object after `restore` returns. -/
def restoreMutate (pos : Position) : Position :=
  let pos := if pos.dir = none then { pos with dir := some Dir.fwd } else pos
  let pos := if pos.start < 0 then { pos with start := 0 } else pos
  let pos := if pos.endPos < 0 then { pos with endPos := 0 } else pos
  if pos.dir = some Dir.bwd then
    { pos with start := pos.endPos, endPos := pos.start }
  else pos

/-- A selection endpoint as produced by `restore`: either inside a text
node, or the fallback `(editor, editor.childNodes.length)`, whose
character offset is the total text length. -/
inductive RPoint where
  | node (i : Nat) (off : Nat)
  | editorEnd
deriving DecidableEq, Repr

/-- Character offset denoted by an `RPoint`. -/
def rpointAbs (nodes : List Str) : RPoint → Nat
  | .node i off => absIdx nodes i off
  | .editorEnd => totalLen nodes

/-- The walk of `restore` (part_002 lines 216-232): find the first text
node whose cumulative range strictly covers `s` (the walk start) and the
first covering `e`, with the end search nested inside the start check as
in the source.  `sf` is the already-found start node (`startNode`), `k`
the current node index and `current` the accumulated length. -/
def findLoop : List Str → Nat → Nat → Nat → Nat → Option (Nat × Nat) →
    Option (Nat × Nat) × Option (Nat × Nat)
  | [], _, _, _, _, sf => (sf, none)
  | t :: rest, k, current, s, e, sf =>
    let len := t.length
    if current + len > s then
      let sf' := some (sf.getD (k, s - current))
      if current + len > e then (sf', some (k, e - current))
      else findLoop rest (k + 1) (current + len) s e sf'
    else findLoop rest (k + 1) (current + len) s e sf

/-- Conversion of a walk result to a selection endpoint: a found
`(node index, offset)` pair, or the editor-element fallback
`if (!startNode) startNode = editor, startOffset = editor.childNodes.length`. -/
def toRPoint : Option (Nat × Nat) → RPoint
  | some (i, off) => RPoint.node i off
  | none => RPoint.editorEnd

/-- The source's `restore(pos)` (part_002 lines 198-262), returning the
pair (base, extent) handed to `setBaseAndExtent`: mutate `pos`
(`restoreMutate`), walk the text nodes, fall back to the editor element
when a node was not found, and flip the pair back when `dir` is `'<-'`.
The `uneditable` splicing step is the identity here because the modelled
tree has no `contenteditable=false` subtrees. -/
def restorePoints (nodes : List Str) (pos : Position) : RPoint × RPoint :=
  let pos := restoreMutate pos
  let s := pos.start.toNat
  let e := pos.endPos.toNat
  let r := findLoop nodes 0 0 s e none
  let startPt := toRPoint r.1
  let endPt := toRPoint r.2
  if pos.dir = some Dir.bwd then (endPt, startPt) else (startPt, endPt)

/-- Character offset of the base (anchor) endpoint set by `restore`. -/
def restoreAnchorAbs (nodes : List Str) (pos : Position) : Nat :=
  rpointAbs nodes (restorePoints nodes pos).1

/-- Character offset of the extent (focus) endpoint set by `restore`. -/
def restoreFocusAbs (nodes : List Str) (pos : Position) : Nat :=
  rpointAbs nodes (restorePoints nodes pos).2

/-! ## Text-level editor state

The key handlers, the mutation engine and the history manager read the
document only through `toString()` (the concatenated text),
`save`/`restore` (character offsets) and `editor.innerHTML` (the
serialized markup).  They are embedded over a state holding the text
content, the selection as the pair of character offsets that `save`
would return (`selStart` = anchor, `selEnd` = focus), and the history
manager's fields (`history`, `at`, `focus`).  Markup serialization
(`innerHTML`) coincides with the text content in the modelled flows,
which run no highlighter or a text-preserving one. -/

/-- One history entry, the source's `HistoryRecord {html, pos}`. -/
structure HistoryRecord where
  html : Str
  pos : Position
deriving DecidableEq, Repr

/-- Editor state for the handler and history models.  `history` is a JS
array possibly containing holes (`none`), `at` the history pointer
(initially `-1`), `focus` the flag toggled by the focus/blur listeners. -/
structure EdState where
  content : Str
  selStart : Int
  selEnd : Int
  history : List (Option HistoryRecord)
  at' : Int
  focus : Bool
deriving DecidableEq, Repr

/-- The state at construction time: no content, zero selection, empty
history, `at = -1`, unfocused. -/
def edInit : EdState :=
  { content := [], selStart := 0, selEnd := 0, history := [], at' := -1, focus := false }

/-- `save()` at the text level: the anchor and focus character offsets
with the direction `save` computes for them. -/
def saveB (st : EdState) : Position :=
  { start := st.selStart, endPos := st.selEnd,
    dir := some (if st.selStart ≤ st.selEnd then Dir.fwd else Dir.bwd) }

/-- `restore(pos)` at the text level: its net effect on the selection's
character offsets.  After `restoreMutate`, the walk maps the walk-start
and walk-end offsets to nodes (clamping to the total length via the
editor-end fallback) and the `'<-'` case flips the pair back, so the
anchor lands at `pos.start` and the focus at `pos.end`, each clamped to
`[0, length]`.  This is the content of theorems `findLoop_none_spec` and
`save_restore_roundtrip` below, specialised to the text level. -/
def restoreB (st : EdState) (pos : Position) : EdState :=
  let L : Int := st.content.length
  { st with
    selStart := min (max pos.start 0) L
    selEnd := min (max pos.endPos 0) L }

/-- The source's `insert(inserted)` (part_002 lines 486-494): re-save the
selection, slice the text at `start` and `end`, write
`before + inserted + after` back as the region's text, and restore a
collapsed caret at `start + inserted.length`.  Note the slices use the
anchor/focus offsets as-is; they are not reordered. -/
def insert (st : EdState) (inserted : Str) : EdState :=
  let start := st.selStart
  let e := st.selEnd
  let text := st.content
  let before := text.take start.toNat
  let after := text.drop e.toNat
  let st := { st with content := before ++ inserted ++ after }
  restoreB st { start := start + inserted.length, endPos := start + inserted.length, dir := none }

/-- `beforeCursor()`: the text from the start of the region to the start
container/offset of the selection's range, i.e. the document-earlier of
the two selection endpoints. -/
def beforeCursor (st : EdState) : Str :=
  st.content.take (min st.selStart st.selEnd).toNat

/-- `afterCursor()`: the text from the end of the selection's range to
the end of the region. -/
def afterCursor (st : EdState) : Str :=
  st.content.drop (max st.selStart st.selEnd).toNat

/-- The source's `findPadding(text)` (part_002 lines 504-513): scan back
from the end to the beginning of the last line (`i`), then forward over
spaces and tabs (`j`); return the padding run and both indices.  The
backward while-loop leaves `i` just after the last `'\n'` (0 if none),
which equals the length minus the number of trailing non-newline
characters. -/
def findPadding (text : Str) : Str × Nat × Nat :=
  let i := text.length - (text.reverse.takeWhile (fun c => c ≠ '\n')).length
  let pad := (text.drop i).takeWhile (fun c => c = ' ' ∨ c = '\t')
  (pad, i, i + pad.length)

/-- The default `indentOn` option `/[({\[]$/`: the text before the caret
ends with an opening bracket. -/
def indentOn (t : Str) : Bool :=
  match t.getLast? with
  | some c => c = '(' ∨ c = '{' ∨ c = '['
  | none => false

/-- The default `moveToNewLine` option `/^[)}\]]/`: the text after the
caret starts with a closing bracket. -/
def moveToNewLine (t : Str) : Bool :=
  match t.head? with
  | some c => c = ')' ∨ c = '}' ∨ c = ']'
  | none => false

/-- The default `tab` option `'\t'`. -/
def tabDefault : Str := ['\t']

/-- The source's `handleNewLine(event)` (part_002 lines 294-323) for an
`Enter` keydown with the default options and a non-legacy browser: build
the new line's padding (extended by one tab when `indentOn` matches the
text before the caret), insert it, and when an indent happened and
`moveToNewLine` matches the text after the caret, push that text to its
own line at the original padding and put the caret back.  In the
`newLinePadding.length = 0` branch the source calls `legacyNewLineFix`,
which does nothing when `isLegacy` is false (the browser's default
insertion then applies outside the handler), so the state is returned
unchanged there. -/
def handleNewLine (st : EdState) : EdState :=
  let before := beforeCursor st
  let after := afterCursor st
  let padding := (findPadding before).1
  let newLinePadding := if indentOn before then padding ++ tabDefault else padding
  let st1 := if newLinePadding.length > 0 then insert st ('\n' :: newLinePadding) else st
  if newLinePadding ≠ padding ∧ moveToNewLine after then
    let pos := saveB st1
    let st2 := insert st1 ('\n' :: padding)
    restoreB st2 pos
  else st1

/-- `getSelection().toString()`: the text of the selected range. -/
def selectionToString (st : EdState) : Str :=
  (st.content.take (max st.selStart st.selEnd).toNat).drop (min st.selStart st.selEnd).toNat

/-- The closing character paired with an opening one:
`close[open.indexOf(key)]` for `open = "([{'\""`, `close = ")]}'\""`. -/
def closeFor (c : Char) : Char :=
  if c = '(' then ')' else if c = '[' then ']' else if c = '{' then '}' else c

/-- Membership in the source's `open` string `([{'"`. -/
def isOpenChar (c : Char) : Bool :=
  c = '(' ∨ c = '[' ∨ c = '{' ∨ c = '\'' ∨ c = '"'

/-- Membership in the source's `close` string `)]}'"`. -/
def isCloseChar (c : Char) : Bool :=
  c = ')' ∨ c = ']' ∨ c = '}' ∨ c = '\'' ∨ c = '"'

/-- The newest `handleSelfClosingCharacters(event)` (part_002 lines
342-355): only opening characters are intercepted; the handler inserts
the pair (around the selected text, if any) and advances both offsets by
one.  Closing characters fall through without `preventDefault`, so the
browser's default insertion applies to them.  The returned `Bool` is
whether the handler called `event.preventDefault()`. -/
def handleSelfClosingCharacters (key : Char) (st : EdState) : EdState × Bool :=
  if isOpenChar key then
    let pos := saveB st
    let wrapText := if pos.start = pos.endPos then [] else selectionToString st
    let text := key :: wrapText ++ [closeFor key]
    let st1 := insert st text
    let st2 := restoreB st1 { pos with start := pos.start + 1, endPos := pos.endPos + 1 }
    (st2, true)
  else (st, false)

/-! ## History manager -/

/-- JS array read `history[i]` with a possibly negative or out-of-range
index: negative indices and holes read as `undefined` (`none`). -/
def histGet (h : List (Option HistoryRecord)) (i : Int) : Option HistoryRecord :=
  if i < 0 then none else (h[i.toNat]?).join

/-- JS array assignment `l[i] = x`: in range it overwrites, past the end
it extends the array to length `i + 1`, padding with holes. -/
def jsArraySet (l : List (Option HistoryRecord)) (i : Nat) (x : HistoryRecord) :
    List (Option HistoryRecord) :=
  if i < l.length then l.set i (some x)
  else l ++ List.replicate (i - l.length) none ++ [some x]

/-- The capacity constant `maxHistory = 300` of `recordHistory`. -/
def maxHistory : Int := 300

/-- The duplicate test of `recordHistory` (part_002 lines 408-413): the
record at the current pointer exists and has the same serialized content
and the same `start`/`end` offsets as the current snapshot (`dir` is not
compared). -/
def isDuplicate (st : EdState) : Bool :=
  match histGet st.history st.at' with
  | some lastRecord =>
      lastRecord.html = st.content ∧ lastRecord.pos.start = (saveB st).start ∧
        lastRecord.pos.endPos = (saveB st).endPos
  | none => false

/-- The recording tail of `recordHistory` (part_002 lines 415-423):
`at++`, `history[at] = {html, pos}`, `history.splice(at + 1)` (truncate
the redo tail), and when `at > maxHistory`, clamp `at` to `maxHistory`
and `history.splice(0, 1)` (evict the oldest record). -/
def recordPush (st : EdState) : EdState :=
  let rec_ : HistoryRecord := { html := st.content, pos := saveB st }
  let at1 := st.at' + 1
  let h1 := jsArraySet st.history at1.toNat rec_
  let h2 := h1.take (at1.toNat + 1)
  if at1 > maxHistory then { st with at' := maxHistory, history := h2.drop 1 }
  else { st with at' := at1, history := h2 }

/-- The source's `recordHistory()` (part_002 lines 402-424): a no-op
without focus, a no-op when the snapshot duplicates the record at the
current pointer, otherwise `recordPush`.  The snapshot is
`editor.innerHTML` (the text content in the modelled flows) plus
`save()`. -/
def recordHistory (st : EdState) : EdState :=
  if st.focus = false then st
  else if isDuplicate st then st
  else recordPush st

/-- Restoring a history record into the editor:
`editor.innerHTML = record.html; restore(record.pos)` (part_002 lines
385-386).  `restore` also mutates the stored `Position` object in place
(aliasing through the history array), so the stored record is updated
with `restoreMutate` of its position. -/
def applyRecord (st : EdState) (i : Nat) (record : HistoryRecord) : EdState :=
  let st1 := restoreB { st with content := record.html } record.pos
  { st1 with history := st1.history.set i (some { record with pos := restoreMutate record.pos }) }

/-- The undo branch of `handleUndoRedo(event)` (part_002 lines 380-389):
`at--`; if a record exists at the new pointer, load it; finally clamp a
negative pointer to 0. -/
def handleUndo (st : EdState) : EdState :=
  let at1 := st.at' - 1
  let st1 :=
    match histGet st.history at1 with
    | some record => applyRecord st at1.toNat record
    | none => st
  let st2 := { st1 with at' := at1 }
  if st2.at' < 0 then { st2 with at' := 0 } else st2

/-- The redo branch of `handleUndoRedo(event)` (part_002 lines 390-399):
`at++`; if a record exists at the new pointer, load it; finally clamp
the pointer back when it ran past the end. -/
def handleRedo (st : EdState) : EdState :=
  let at1 := st.at' + 1
  let st1 :=
    match histGet st.history at1 with
    | some record => applyRecord st at1.toNat record
    | none => st
  let st2 := { st1 with at' := at1 }
  if st2.at' ≥ (st2.history.length : Int) then { st2 with at' := st2.at' - 1 } else st2

/-- The operations driving the history subsystem: an edit (the document
and selection change arbitrarily between recordings), an explicit
`recordHistory()`, the undo and redo keystrokes, and the focus/blur
listeners (`on('focus', ...)`, `on('blur', ...)`). -/
inductive HistOp where
  | edit (content : Str) (s e : Int)
  | record
  | undo
  | redo
  | setFocus (b : Bool)
deriving DecidableEq, Repr

/-- Apply one operation to the editor state. -/
def applyOp (st : EdState) : HistOp → EdState
  | .edit c s e => { st with content := c, selStart := s, selEnd := e }
  | .record => recordHistory st
  | .undo => handleUndo st
  | .redo => handleRedo st
  | .setFocus b => { st with focus := b }

/-- Run a sequence of operations from a state. -/
def runOps (st : EdState) (ops : List HistOp) : EdState :=
  ops.foldl applyOp st

/-! ## Paste and updateCode -/

/-- The line-ending normalisation of `handlePaste`:
`.replace(/\r\n?/g, '\n')` rewrites each `\r\n` pair and each lone `\r`
to a single `\n`, scanning left to right. -/
def normEol : Str → Str
  | [] => []
  | '\r' :: '\n' :: rest => '\n' :: normEol rest
  | '\r' :: rest => '\n' :: normEol rest
  | c :: rest => c :: normEol rest

/-- The source's `handlePaste(event)` (part_002 lines 426-438) for an
event that is not already default-prevented and carries clipboard text
`clip`: normalise the line endings, insert over the selection, re-run
the highlighter (text-preserving, so invisible at this level), and
restore a collapsed caret at `min(pos.start, pos.end) + text.length`. -/
def handlePaste (clip : Str) (st : EdState) : EdState :=
  let text := normEol clip
  let pos := saveB st
  let st1 := insert st text
  restoreB st1
    { start := min pos.start pos.endPos + text.length,
      endPos := min pos.start pos.endPos + text.length,
      dir := some Dir.bwd }

/-- The `on('paste', ...)` listener (part_002 lines 119-124):
`recordHistory(); handlePaste(event); recordHistory()`, followed by the
`onUpdate` notification (external, not part of the state). -/
def pasteListener (clip : Str) (st : EdState) : EdState :=
  recordHistory (handlePaste clip (recordHistory st))

/-- The source's `updateCode(code, callOnUpdate = true)` (part_002 lines
527-531): `editor.textContent = code`, `highlight(editor)`, and the
optional `onUpdate(code)` call.  The highlighter is passed explicitly as
the text content it leaves behind (`hl`); the second component of the
result is the argument `onUpdate` was invoked with, if it was. -/
def updateCode (hl : Str → Str) (code : Str) (callOnUpdate : Bool) (st : EdState) :
    EdState × Option Str :=
  let st1 := { st with content := code }
  let st2 := { st1 with content := hl st1.content }
  (st2, if callOnUpdate then some code else none)

end CodeJar

namespace CodejarTs

open CodeJar

/-- The `handleSelfClosingCharacters(event)` of the `codejar.ts` variant
(codejar.ts lines 304-332): a closing character typed right before the
same character skips over it (`pos.start = ++pos.end` then restore), an
opening character not escaped by a backslash and followed by blank,
newline or end of content (quotes unconditionally) inserts the pair.
The insert path entity-escapes the text and uses `insertHTML`, which
renders as the literal text, so it is modelled by the text-level
`insert`.  The returned `Bool` is whether `preventDefault` was called. -/
def handleSelfClosingCharacters (key : Char) (st : EdState) : EdState × Bool :=
  let codeAfter := afterCursor st
  let codeBefore := beforeCursor st
  let escapeCharacter := codeBefore.getLast? = some '\\'
  let charAfter := codeAfter.head?
  if isCloseChar key ∧ ¬escapeCharacter ∧ charAfter = some key then
    let pos := saveB st
    (restoreB st { pos with start := pos.endPos + 1, endPos := pos.endPos + 1 }, true)
  else if isOpenChar key ∧ ¬escapeCharacter ∧
      ((key = '\'' ∨ key = '"') ∨ (charAfter = none ∨ charAfter = some ' ' ∨ charAfter = some '\n')) then
    let pos := saveB st
    let wrapText := if pos.start = pos.endPos then [] else selectionToString st
    let text := key :: wrapText ++ [closeFor key]
    let st1 := insert st text
    let st2 := restoreB st1 { pos with start := pos.start + 1, endPos := pos.endPos + 1 }
    (st2, true)
  else (st, false)

end CodejarTs

namespace CodeJar

/-- The operation sequence of 301 recordable edits with alternating
content, used to exhibit the history growing past 300 entries. -/
def recOps301 : List HistOp :=
  (List.range 301).flatMap
    (fun i => [HistOp.edit (if i % 2 = 0 then ['a'] else ['b']) 0 0, HistOp.record])

/-- Concrete state for the indent-on-brace scenario: content
`if (x) {}` with a collapsed caret at offset 8 (between `{` and `}`). -/
def stBrace : EdState :=
  { content := "if (x) {}".toList, selStart := 8, selEnd := 8,
    history := [], at' := -1, focus := true }

/-- Concrete state for the bracket skip-over scenario: content `()` with
a collapsed caret at offset 1. -/
def stParens : EdState :=
  { content := "()".toList, selStart := 1, selEnd := 1,
    history := [], at' := -1, focus := true }

/-- Concrete focused state whose history is full (301 entries) with the
pointer at the capacity bound, used to exhibit the eviction step. -/
def stFull : EdState :=
  { content := ['y'], selStart := 0, selEnd := 0,
    history := List.replicate 301 (some { html := ['x'], pos := { start := 0, endPos := 0, dir := none } }),
    at' := 300, focus := true }

/-- Concrete state with a forward selection `[1, 3)` over `abcd`. -/
def stFwd : EdState :=
  { content := "abcd".toList, selStart := 1, selEnd := 3,
    history := [], at' := -1, focus := true }

/-- Concrete state with a backward selection over `abcd`: anchor at
offset 3, focus at offset 1 (the user dragged right to left). -/
def stBack : EdState :=
  { content := "abcd".toList, selStart := 3, selEnd := 1,
    history := [], at' := -1, focus := true }

/-- The state reached by pasting `X\nY` into a focused empty editor:
content `X\nY`, collapsed caret after `Y` (offset 3), and two history
records bracketing the insertion (the pre-paste and post-paste
snapshots). -/
def stPasted : EdState :=
  { content := "X\nY".toList, selStart := 3, selEnd := 3,
    history := [some { html := [], pos := { start := 0, endPos := 0, dir := some Dir.fwd } },
                some { html := "X\nY".toList, pos := { start := 3, endPos := 3, dir := some Dir.fwd } }],
    at' := 1, focus := true }

/-- The invariant maintained by the history subsystem on all states
reachable from `edInit`: the pointer stays in `[-1, maxHistory]`, the
list never exceeds 301 entries, the pointer never exceeds the length,
and it is strictly below the length whenever the list is nonempty. -/
def HistInv (st : EdState) : Prop :=
  -1 ≤ st.at' ∧ st.at' ≤ maxHistory ∧ st.history.length ≤ 301 ∧
    st.at' ≤ (st.history.length : Int) ∧
    (0 < st.history.length → st.at' < (st.history.length : Int))

end CodeJar

open CodeJar

/-! ## Helper lemmas about the history model -/

theorem jsArraySet_length (l : List (Option HistoryRecord)) (i : Nat) (x : HistoryRecord) :
    (jsArraySet l i x).length = max l.length (i + 1) := by
  unfold jsArraySet
  split
  · rw [List.length_set]; omega
  · simp only [List.length_append, List.length_replicate, List.length_cons, List.length_nil]
    omega

theorem jsArraySet_getElem_self (l : List (Option HistoryRecord)) (i : Nat) (x : HistoryRecord) :
    (jsArraySet l i x)[i]? = some (some x) := by
  unfold jsArraySet
  split
  · exact List.getElem?_set_self (by assumption)
  · rename_i h
    rw [List.getElem?_append_right (by simp [List.length_append, List.length_replicate]; omega)]
    simp only [List.length_append, List.length_replicate]
    have : i - (l.length + (i - l.length)) = 0 := by omega
    rw [this]
    rfl

theorem take_jsArraySet_getElem (l : List (Option HistoryRecord)) (i : Nat) (x : HistoryRecord) :
    ((jsArraySet l i x).take (i + 1))[i]? = some (some x) := by
  rw [List.getElem?_take]
  simp [jsArraySet_getElem_self]

theorem recordPush_doc (st : EdState) :
    (recordPush st).content = st.content ∧ (recordPush st).selStart = st.selStart ∧
      (recordPush st).selEnd = st.selEnd ∧ (recordPush st).focus = st.focus := by
  simp only [recordPush]
  split_ifs <;> exact ⟨rfl, rfl, rfl, rfl⟩

theorem recordPush_at (st : EdState) :
    (recordPush st).at' = if st.at' + 1 > maxHistory then maxHistory else st.at' + 1 := by
  simp only [recordPush]
  split_ifs <;> rfl

theorem recordPush_length (st : EdState) :
    (recordPush st).history.length
      = if st.at' + 1 > maxHistory then (st.at' + 1).toNat else (st.at' + 1).toNat + 1 := by
  simp only [recordPush]
  split_ifs with h
  · rw [List.length_drop, List.length_take, jsArraySet_length]
    omega
  · rw [List.length_take, jsArraySet_length]
    omega

theorem recordPush_histGet (st : EdState) (h1 : -1 ≤ st.at') (h3 : st.at' ≤ maxHistory) :
    histGet (recordPush st).history (recordPush st).at'
      = some { html := st.content, pos := saveB st } := by
  simp only [recordPush]
  split_ifs with hgt
  · have hat : st.at' = 300 := by
      simp only [maxHistory] at h3 hgt
      omega
    have hi : (st.at' + 1).toNat = 301 := by omega
    simp only [histGet, maxHistory]
    rw [if_neg (by norm_num)]
    rw [show ((300 : Int).toNat) = 300 from rfl]
    rw [List.getElem?_drop, List.getElem?_take]
    rw [if_pos (by omega), hi]
    rw [show (1 + 300) = 301 from rfl]
    rw [jsArraySet_getElem_self]
    rfl
  · simp only [histGet]
    rw [if_neg (by omega)]
    rw [take_jsArraySet_getElem]
    rfl

theorem isDuplicate_true_of (st : EdState) (r : HistoryRecord)
    (hg : histGet st.history st.at' = some r) (h : r.html = st.content)
    (h2 : r.pos.start = st.selStart) (h3 : r.pos.endPos = st.selEnd) :
    isDuplicate st = true := by
  unfold isDuplicate
  rw [hg]
  simp [saveB, h, h2, h3]

theorem isDuplicate_elim (st : EdState) (hd : isDuplicate st = true) :
    ∃ r, histGet st.history st.at' = some r ∧ r.html = st.content ∧
      r.pos.start = st.selStart ∧ r.pos.endPos = st.selEnd := by
  unfold isDuplicate at hd
  cases hg : histGet st.history st.at' with
  | none => rw [hg] at hd; simp at hd
  | some r =>
    rw [hg] at hd
    simp [saveB] at hd
    exact ⟨r, rfl, hd.1, hd.2.1, hd.2.2⟩

theorem recordHistory_eq_push (st : EdState) (hf : st.focus = true)
    (hd : isDuplicate st = false) : recordHistory st = recordPush st := by
  simp [recordHistory, hf, hd]

theorem recordHistory_eq_self_of_dup (st : EdState) (hd : isDuplicate st = true) :
    recordHistory st = st := by
  simp [recordHistory, hd]

theorem applyRecord_fields (st : EdState) (i : Nat) (r : HistoryRecord) :
    (applyRecord st i r).at' = st.at' ∧ (applyRecord st i r).focus = st.focus ∧
      (applyRecord st i r).history.length = st.history.length := by
  simp [applyRecord, restoreB, List.length_set]

theorem handleUndo_at_length (st : EdState) :
    (handleUndo st).at' = (if st.at' - 1 < 0 then 0 else st.at' - 1) ∧
      (handleUndo st).history.length = st.history.length := by
  unfold handleUndo
  cases hg : histGet st.history (st.at' - 1) <;>
    simp only [hg, applyRecord, restoreB] <;> split_ifs <;>
      simp [List.length_set]

theorem handleRedo_at_length (st : EdState) :
    (handleRedo st).at'
        = (if st.at' + 1 ≥ (st.history.length : Int) then st.at' else st.at' + 1) ∧
      (handleRedo st).history.length = st.history.length := by
  unfold handleRedo
  cases hg : histGet st.history (st.at' + 1) <;>
    simp only [hg, applyRecord, restoreB, List.length_set] <;> split_ifs <;>
      first
        | exact ⟨rfl, by simp [List.length_set]⟩
        | simp_all [List.length_set]

theorem histInv_init : HistInv edInit := by
  simp [HistInv, edInit, maxHistory]

theorem histInv_applyOp (st : EdState) (op : HistOp) (h : HistInv st) :
    HistInv (applyOp st op) := by
  obtain ⟨h1, h2, h3, h4, h5⟩ := h
  cases op with
  | edit c s e => exact ⟨h1, h2, h3, h4, h5⟩
  | setFocus b => exact ⟨h1, h2, h3, h4, h5⟩
  | record =>
    show HistInv (recordHistory st)
    unfold recordHistory
    split
    · exact ⟨h1, h2, h3, h4, h5⟩
    · split
      · exact ⟨h1, h2, h3, h4, h5⟩
      · have ha := recordPush_at st
        have hl := recordPush_length st
        unfold HistInv
        rw [ha, hl]
        simp only [maxHistory] at h1 h2 h3 h4 h5 ha hl ⊢
        split_ifs <;> omega
  | undo =>
    show HistInv (handleUndo st)
    obtain ⟨hat, hlen⟩ := handleUndo_at_length st
    unfold HistInv
    rw [hat, hlen]
    simp only [maxHistory] at h1 h2 h3 h4 h5 ⊢
    split_ifs <;> omega
  | redo =>
    show HistInv (handleRedo st)
    obtain ⟨hat, hlen⟩ := handleRedo_at_length st
    unfold HistInv
    rw [hat, hlen]
    simp only [maxHistory] at h1 h2 h3 h4 h5 ⊢
    split_ifs <;> omega

theorem histInv_runOps (ops : List HistOp) (st : EdState) (h : HistInv st) :
    HistInv (runOps st ops) := by
  induction ops generalizing st with
  | nil => exact h
  | cons op rest ih => exact ih (applyOp st op) (histInv_applyOp st op h)

/-- C5: with the text `if (x) {` immediately before a collapsed caret and
`}` immediately after it, under the default `indentOn`, `moveToNewLine`
and `tab` options, pressing Enter yields three lines: `if (x) {`, then a
line containing one tab with the caret at its end, then `}` on its own
unindented line. -/
theorem c5_indent_on_brace_enter :
    handleNewLine stBrace
      = { stBrace with content := "if (x) \x7b\n\t\n\x7d".toList, selStart := 10, selEnd := 10 }
    ∧ (handleNewLine stBrace).content.splitOn '\n'
      = ["if (x) \x7b".toList, "\t".toList, "\x7d".toList]
    ∧ (handleNewLine stBrace).selStart
      = ("if (x) \x7b".toList.length : Int) + 1 + "\t".toList.length := by
  decide

/-- C7 counterexample: when the live selection provides no anchor or
focus node, `save` does not return a fallback position (zero or last
known) — it throws the string `'error1'`. -/
theorem c7_counterexample_save_throws :
    saveChecked none [] = Except.error "error1"
    ∧ saveChecked none [] ≠ Except.ok { start := 0, endPos := 0, dir := none } := by
  refine ⟨rfl, ?_⟩
  intro h
  exact Except.noConfusion h

/-- C7 amended: if `save()` is invoked when no anchor or focus node
exists, it throws the string `'error1'` (an exception surfaced to the
caller) for every document content; no fallback to a previous or zero
position exists in the code. -/
theorem c7_save_throws_error1 (nodes : List Str) :
    saveChecked none nodes = Except.error "error1" :=
  rfl

/-- C8 counterexample: in the newest `handleSelfClosingCharacters`
(part_002), a keydown of `)` with content `()` and a collapsed caret at
offset 1 is not intercepted at all: the handler neither moves the caret
to offset 2 nor calls `preventDefault`, so the browser's default
insertion proceeds and produces a duplicate `)`. -/
theorem c8_counterexample_latest_no_skip :
    CodeJar.handleSelfClosingCharacters ')' stParens = (stParens, false) := by
  decide

/-- C8 amended: in the `codejar.ts` variant of
`handleSelfClosingCharacters` (the version with the close-character
check), a keydown of `)` with content `()` and a collapsed caret at
offset 1 leaves the content unchanged, moves the caret to offset 2 and
prevents the default insertion, so no duplicate `)` is inserted. -/
theorem c8_skip_over_in_codejar_ts :
    CodejarTs.handleSelfClosingCharacters ')' stParens
      = ({ stParens with selStart := 2, selEnd := 2 }, true) := by
  decide

/-- C9 counterexample: `updateCode` does not record any history
snapshot: starting from a focused editor with empty history, the history
is still empty and the pointer still `-1` after
`updateCode('a', true)`. -/
theorem c9_counterexample_updateCode_no_history :
    (updateCode id ['a'] true { edInit with focus := true }).1.history = []
    ∧ (updateCode id ['a'] true { edInit with focus := true }).1.at' = -1 := by
  decide

/-- C9 amended: `updateCode(text, notify = true)` replaces the region's
entire content with `text`, re-runs the highlighter on it (yielding
`hl text` as the new text content, which equals `text` for a
text-preserving highlighter), and invokes the update callback with
`text` exactly when `notify` is set; it leaves the history and the
pointer — and every other state component — untouched, so the
programmatic replacement is not recorded as an undo step. -/
theorem c9_updateCode_effect (hl : Str → Str) (code : Str) (callOnUpdate : Bool)
    (st : EdState) :
    updateCode hl code callOnUpdate st
      = ({ st with content := hl code }, if callOnUpdate then some code else none) :=
  rfl

/-- C10 counterexample: `restore` clamps a negative `start` to 0 before
the `'<-'` swap, so for `pos = {start: -1, end: 5, dir: '<-'}` the final
`pos.end` is 0, not the original `pos.start = -1` as the claim's
universal statement requires. -/
theorem c10_counterexample_clamp_before_swap :
    (restoreMutate { start := -1, endPos := 5, dir := some Dir.bwd }).start = 5
    ∧ (restoreMutate { start := -1, endPos := 5, dir := some Dir.bwd }).endPos ≠ -1 := by
  decide

/-- C10 amended: `restore(pos)` mutates the caller's `Position` in
place: an unset `dir` becomes `'->'`, negative offsets are clamped to 0,
and when `dir` is `'<-'` the (already clamped) `start` and `end` are
swapped and not swapped back — so after `restore(pos)` returns,
`pos.start = max(original end, 0)` and `pos.end = max(original start,
0)` whenever `dir` was `'<-'`. -/
theorem c10_restore_mutates_position (pos : Position) :
    (pos.dir = none →
      restoreMutate pos
        = { start := max pos.start 0, endPos := max pos.endPos 0, dir := some Dir.fwd })
    ∧ (pos.dir = some Dir.bwd →
      restoreMutate pos
        = { start := max pos.endPos 0, endPos := max pos.start 0, dir := some Dir.bwd })
    ∧ (pos.dir = some Dir.fwd →
      restoreMutate pos
        = { start := max pos.start 0, endPos := max pos.endPos 0, dir := some Dir.fwd }) := by
  obtain ⟨s, e, d⟩ := pos
  refine ⟨?_, ?_, ?_⟩ <;> intro h <;> simp only at h <;> subst h <;>
    simp only [restoreMutate] <;> split_ifs <;>
    simp_all [Position.mk.injEq] <;> omega

/-- C10 witness: the amended theorem applied at the concrete position
`{start: -2, end: 3, dir: '<-'}`. -/
theorem c10_restore_mutates_position_witness :
    restoreMutate { start := -2, endPos := 3, dir := some Dir.bwd }
      = { start := max (3 : Int) 0, endPos := max (-2 : Int) 0, dir := some Dir.bwd } :=
  (c10_restore_mutates_position { start := -2, endPos := 3, dir := some Dir.bwd }).2.1 rfl

/-! ## Mutation-engine lemma shared by the paste results -/

theorem insert_spec (st : EdState) (ins : Str)
    (h0 : 0 ≤ st.selStart) (h1 : st.selStart ≤ st.selEnd)
    (h2 : st.selEnd ≤ (st.content.length : Int)) :
    CodeJar.insert st ins
      = { st with
          content := st.content.take st.selStart.toNat ++ ins ++ st.content.drop st.selEnd.toNat,
          selStart := st.selStart + ins.length,
          selEnd := st.selStart + ins.length } := by
  have l1 : (st.content.take st.selStart.toNat).length = st.selStart.toNat := by
    rw [List.length_take]
    omega
  have l2 : (st.content.drop st.selEnd.toNat).length = st.content.length - st.selEnd.toNat :=
    List.length_drop _ _
  unfold CodeJar.insert restoreB
  simp only [EdState.mk.injEq, List.length_append, l1, l2, true_and, and_true]
  constructor <;> push_cast <;> omega

/-- C6: if the region has focus (and the history pointer is in its valid
range), calling `recordHistory()` twice in succession with no
intervening change of content or selection adds at most one entry and
the second call is the identity: after the first call the record at the
current pointer carries exactly the current serialized content and both
selection offsets, so the second call's duplicate test fires and it
skips recording. -/
theorem c6_record_history_idempotent (st : EdState) (hf : st.focus = true)
    (h1 : -1 ≤ st.at') (h2 : st.at' < (st.history.length : Int)) (h3 : st.at' ≤ maxHistory) :
    recordHistory (recordHistory st) = recordHistory st
    ∧ (recordHistory st).history.length ≤ st.history.length + 1
    ∧ ∃ r, histGet (recordHistory st).history (recordHistory st).at' = some r
        ∧ r.html = st.content ∧ r.pos.start = st.selStart ∧ r.pos.endPos = st.selEnd := by
  by_cases hd : isDuplicate st = true
  · have he : recordHistory st = st := recordHistory_eq_self_of_dup st hd
    rw [he]
    exact ⟨he, Nat.le_succ _, isDuplicate_elim st hd⟩
  · have hd' : isDuplicate st = false := Bool.eq_false_iff.mpr hd
    have he : recordHistory st = recordPush st := recordHistory_eq_push st hf hd'
    rw [he]
    have hg := recordPush_histGet st h1 h3
    have hdoc := recordPush_doc st
    refine ⟨?_, ?_, ⟨_, hg, rfl, rfl, rfl⟩⟩
    · have hd2 : isDuplicate (recordPush st) = true := by
        apply isDuplicate_true_of _ _ hg
        · rw [hdoc.1]
        · rw [hdoc.2.1]
          rfl
        · rw [hdoc.2.2.1]
          rfl
      exact recordHistory_eq_self_of_dup _ hd2
    · rw [recordPush_length st]
      split_ifs <;> omega

/-- C6 witness: the theorem applied to the focused initial state. -/
theorem c6_record_history_idempotent_witness :
    recordHistory (recordHistory { edInit with focus := true })
      = recordHistory { edInit with focus := true } :=
  (c6_record_history_idempotent { edInit with focus := true } rfl (by decide) (by decide)
    (by decide)).1

set_option maxRecDepth 10000 in
set_option maxHeartbeats 4000000 in
/-- C2 counterexample: 301 consecutive recordable edits with focus leave
the history with 301 entries, exceeding the claimed bound of 300; the
source's `maxHistory = 300` bounds the pointer index, so up to 301
records are retained. -/
theorem c2_counterexample_301_entries :
    300 < (runOps { edInit with focus := true } recOps301).history.length := by
  decide

/-- C2 amended: for every operation sequence from the initial state the
history never exceeds 301 entries and the pointer never exceeds
`maxHistory = 300`; and in a full history (301 entries, pointer at 300),
a recording call evicts the oldest record from the front and clamps
(decrements) the pointer from 301 back to 300: the new history is the
old one without its head, with the new record appended. -/
theorem c2_history_capacity_bound (ops : List HistOp) (st : EdState)
    (hf : st.focus = true) (ha : st.at' = maxHistory) (hl : st.history.length = 301)
    (hd : isDuplicate st = false) :
    ((runOps edInit ops).history.length ≤ 301
      ∧ -1 ≤ (runOps edInit ops).at' ∧ (runOps edInit ops).at' ≤ maxHistory)
    ∧ recordHistory st
        = { st with at' := maxHistory, history := st.history.drop 1 ++ [some { html := st.content, pos := saveB st }] } := by
  constructor
  · have hi := histInv_runOps ops edInit histInv_init
    exact ⟨hi.2.2.1, hi.1, hi.2.1⟩
  · rw [recordHistory_eq_push st hf hd]
    simp only [maxHistory] at ha
    simp only [recordPush]
    rw [if_pos (by simp only [maxHistory]; omega)]
    have hn : (st.at' + 1).toNat = 301 := by omega
    rw [hn]
    unfold jsArraySet
    rw [if_neg (by omega)]
    have hz : 301 - st.history.length = 0 := by omega
    rw [hz]
    simp only [List.replicate, List.nil_append]
    rw [List.take_of_length_le (by simp [hl])]
    rw [List.append_nil]
    rw [List.drop_append_of_le_length (show 1 ≤ st.history.length by omega)]

set_option maxRecDepth 10000 in
/-- C2 witness: the bound part of the amended theorem applied at the
empty operation sequence and the full concrete state `stFull`. -/
theorem c2_history_capacity_bound_witness :
    (runOps edInit []).history.length ≤ 301
      ∧ -1 ≤ (runOps edInit []).at' ∧ (runOps edInit []).at' ≤ maxHistory :=
  (c2_history_capacity_bound [] stFull rfl rfl (by decide) (by decide)).1

/-- C3 counterexample: a single undo keystroke on the initial empty
history decrements the pointer to -2, finds no record, and clamps the
pointer to 0 while the history length is 0 — so the claimed invariant
`at < length` fails on the empty history. -/
theorem c3_counterexample_undo_on_empty :
    (runOps edInit [HistOp.undo]).at' = 0
    ∧ (runOps edInit [HistOp.undo]).history.length = 0
    ∧ ¬((runOps edInit [HistOp.undo]).at'
        < ((runOps edInit [HistOp.undo]).history.length : Int)) := by
  decide

/-- C3 amended: for every sequence of operations from the initial state,
the pointer satisfies `-1 ≤ at ≤ length`, and `at < length` whenever the
history is nonempty (undo on an empty history is the one corner that
leaves `at = 0 = length`); an undo or redo whose moved pointer finds no
record is silently clamped and leaves content, selection and history
unchanged — it never faults. -/
theorem c3_pointer_clamped_no_error (ops : List HistOp) (st : EdState)
    (hu : histGet st.history (st.at' - 1) = none)
    (hr : histGet st.history (st.at' + 1) = none) :
    (-1 ≤ (runOps edInit ops).at'
      ∧ (runOps edInit ops).at' ≤ ((runOps edInit ops).history.length : Int)
      ∧ (0 < (runOps edInit ops).history.length →
          (runOps edInit ops).at' < ((runOps edInit ops).history.length : Int)))
    ∧ ((handleUndo st).content = st.content ∧ (handleUndo st).selStart = st.selStart
        ∧ (handleUndo st).selEnd = st.selEnd ∧ (handleUndo st).history = st.history)
    ∧ ((handleRedo st).content = st.content ∧ (handleRedo st).selStart = st.selStart
        ∧ (handleRedo st).selEnd = st.selEnd ∧ (handleRedo st).history = st.history) := by
  refine ⟨?_, ?_, ?_⟩
  · have hi := histInv_runOps ops edInit histInv_init
    exact ⟨hi.1, hi.2.2.2.1, hi.2.2.2.2⟩
  · simp only [handleUndo, hu]
    split_ifs <;> exact ⟨rfl, rfl, rfl, rfl⟩
  · simp only [handleRedo, hr]
    split_ifs <;> exact ⟨rfl, rfl, rfl, rfl⟩

/-- C3 witness: the theorem applied at the one-undo sequence and the
initial state. -/
theorem c3_pointer_clamped_no_error_witness :
    (handleUndo edInit).content = edInit.content
      ∧ (handleUndo edInit).selStart = edInit.selStart
      ∧ (handleUndo edInit).selEnd = edInit.selEnd
      ∧ (handleUndo edInit).history = edInit.history :=
  (c3_pointer_clamped_no_error [HistOp.undo] edInit (by decide) (by decide)).2.1

/-- C4 counterexample: pasting over a backward selection (anchor after
focus) does not replace the selected span: `insert` slices the text at
the anchor and focus offsets as given, so for content `abcd` with anchor
3 and focus 1, pasting `X` yields `abcXbcd` — the selected `bc` is kept
on both sides — instead of the `aXd` the claim requires. -/
theorem c4_counterexample_backward_selection :
    (handlePaste ['X'] stBack).content = "abcXbcd".toList
    ∧ (handlePaste ['X'] stBack).content ≠ "aXd".toList := by
  decide

/-- C4 amended: handling a paste event with clipboard text `clip` forces
a history snapshot immediately before and after the insertion (the two
direct `recordHistory()` calls in the paste listener), normalizes the
pasted text's line endings to `\n`, and leaves the caret collapsed
immediately after the inserted text.  For a forward selection (anchor at
or before focus) the selection is replaced by the normalized text; for a
backward selection the span is not replaced (see the counterexample).
In particular pasting `X\nY` into focused empty content yields `X\nY`
with caret offset 3 and exactly the two bracketing history records. -/
theorem c4_paste_pipeline (clip : Str) (st : EdState)
    (h0 : 0 ≤ st.selStart) (h1 : st.selStart ≤ st.selEnd)
    (h2 : st.selEnd ≤ (st.content.length : Int)) :
    ((handlePaste clip st).content
        = st.content.take st.selStart.toNat ++ normEol clip ++ st.content.drop st.selEnd.toNat
      ∧ (handlePaste clip st).selStart = st.selStart + ((normEol clip).length : Int)
      ∧ (handlePaste clip st).selEnd = st.selStart + ((normEol clip).length : Int))
    ∧ pasteListener "X\nY".toList { edInit with focus := true } = stPasted := by
  have hins := insert_spec st (normEol clip) h0 h1 h2
  constructor
  · simp only [handlePaste]
    rw [hins]
    have l1 : (st.content.take st.selStart.toNat).length = st.selStart.toNat := by
      rw [List.length_take]
      omega
    unfold restoreB saveB
    simp only [List.length_append, l1, List.length_drop]
    refine ⟨?_, ?_, ?_⟩
    · trivial
    · push_cast
      omega
    · push_cast
      omega
  · decide

/-- C4 witness: the replacement equation of the theorem applied at
clipboard text `X` and the concrete forward-selection state `stFwd`. -/
theorem c4_paste_pipeline_witness :
    (handlePaste ['X'] stFwd).content
      = stFwd.content.take stFwd.selStart.toNat ++ normEol ['X']
          ++ stFwd.content.drop stFwd.selEnd.toNat :=
  (c4_paste_pipeline ['X'] stFwd (by decide) (by decide) (by decide)).1.1

/-! ## Arithmetic of text-node offsets -/

theorem totalLen_nil : totalLen [] = 0 := rfl

theorem totalLen_cons (t : Str) (l : List Str) :
    totalLen (t :: l) = t.length + totalLen l := by
  simp [totalLen]

theorem totalLen_append (a b : List Str) :
    totalLen (a ++ b) = totalLen a + totalLen b := by
  simp [totalLen]

theorem totalLen_eq_flatten_length (l : List Str) :
    totalLen l = l.flatten.length := by
  rw [List.length_flatten]
  rfl

theorem totalLen_take_le (l : List Str) (n : Nat) :
    totalLen (l.take n) ≤ totalLen l := by
  conv_rhs => rw [← List.take_append_drop n l]
  rw [totalLen_append]
  omega

theorem totalLen_take_mono (l : List Str) {m n : Nat} (h : m ≤ n) :
    totalLen (l.take m) ≤ totalLen (l.take n) := by
  have h2 := totalLen_take_le (l.take n) m
  rwa [List.take_take, Nat.min_eq_left h] at h2

theorem totalLen_take_succ (l : List Str) (i : Nat) (h : i < l.length) :
    totalLen (l.take (i + 1)) = totalLen (l.take i) + (l.getD i []).length := by
  rw [List.take_succ, totalLen_append, List.getElem?_eq_getElem h]
  simp [totalLen, List.getD_eq_getElem?_getD, List.getElem?_eq_getElem h]

theorem absIdx_le_totalLen (nodes : List Str) (p : SelPoint) (hv : ValidPoint nodes p) :
    absIdx nodes p.1 p.2 ≤ totalLen nodes := by
  obtain ⟨h1, h2⟩ := hv
  have hs := totalLen_take_succ nodes p.1 h1
  have hle := totalLen_take_le nodes (p.1 + 1)
  unfold absIdx
  omega

theorem absIdx_mono (nodes : List Str) {i j oi oj : Nat} (hij : i < j)
    (hi : i < nodes.length) (hoi : oi ≤ (nodes.getD i []).length) :
    absIdx nodes i oi ≤ absIdx nodes j oj := by
  have hs := totalLen_take_succ nodes i hi
  have hm := totalLen_take_mono nodes (show i + 1 ≤ j by omega)
  unfold absIdx
  omega

/-! ## Characterisation of the save walk -/

theorem saveAccum_fwd (t : Str) (s e : Int) :
    saveAccum t { start := s, endPos := e, dir := some Dir.fwd }
      = { start := s, endPos := e + t.length, dir := some Dir.fwd } := by
  simp [saveAccum]

theorem saveAccum_bwd (t : Str) (s e : Int) :
    saveAccum t { start := s, endPos := e, dir := some Dir.bwd }
      = { start := s + t.length, endPos := e, dir := some Dir.bwd } := by
  simp [saveAccum]

theorem saveAccum_none (t : Str) (s e : Int) :
    saveAccum t { start := s, endPos := e, dir := none }
      = { start := s + t.length, endPos := e + t.length, dir := none } := by
  simp [saveAccum]

theorem saveLoop_fwd (nodes : List Str) (k ai ao fi fo : Nat) (s0 e0 : Int)
    (hai : ai < k) (hk : k ≤ fi) (hfi : fi - k < nodes.length) :
    saveLoop nodes k ai ao fi fo { start := s0, endPos := e0, dir := some Dir.fwd }
      = { start := s0, endPos := e0 + totalLen (nodes.take (fi - k)) + fo,
          dir := some Dir.fwd } := by
  induction nodes generalizing k e0 with
  | nil => simp at hfi
  | cons t rest ih =>
    simp only [saveLoop]
    rw [if_neg (by omega), if_neg (by omega)]
    by_cases hkf : k = fi
    · rw [if_pos hkf]
      have h0 : fi - k = 0 := by omega
      rw [h0, List.take_zero]
      simp [totalLen_nil, Position.mk.injEq]
    · rw [if_neg hkf]
      simp only [saveAccum_fwd]
      rw [ih (k + 1) (e0 + t.length) (by omega) (by omega)
        (by simp only [List.length_cons] at hfi; omega)]
      have h1 : fi - k = (fi - (k + 1)) + 1 := by omega
      rw [h1, List.take_succ_cons, totalLen_cons]
      simp only [Position.mk.injEq, totalLen_nil, true_and, and_true]
      push_cast
      omega

theorem saveLoop_bwd (nodes : List Str) (k ai ao fi fo : Nat) (s0 e0 : Int)
    (hfi : fi < k) (hk : k ≤ ai) (hai : ai - k < nodes.length) :
    saveLoop nodes k ai ao fi fo { start := s0, endPos := e0, dir := some Dir.bwd }
      = { start := s0 + totalLen (nodes.take (ai - k)) + ao, endPos := e0,
          dir := some Dir.bwd } := by
  induction nodes generalizing k s0 with
  | nil => simp at hai
  | cons t rest ih =>
    simp only [saveLoop]
    rw [if_neg (by omega)]
    by_cases hka : k = ai
    · rw [if_pos hka]
      have h0 : ai - k = 0 := by omega
      rw [h0, List.take_zero]
      simp [totalLen_nil, Position.mk.injEq]
    · rw [if_neg hka, if_neg (by omega)]
      simp only [saveAccum_bwd]
      rw [ih (k + 1) (s0 + t.length) (by omega) (by omega)
        (by simp only [List.length_cons] at hai; omega)]
      have h1 : ai - k = (ai - (k + 1)) + 1 := by omega
      rw [h1, List.take_succ_cons, totalLen_cons]
      simp only [Position.mk.injEq, totalLen_nil, true_and, and_true]
      push_cast
      omega

theorem saveLoop_none (nodes : List Str) (k ai ao fi fo : Nat) (s0 e0 : Int)
    (hka : k ≤ ai) (hkf : k ≤ fi)
    (hai : ai - k < nodes.length) (hfi : fi - k < nodes.length) :
    saveLoop nodes k ai ao fi fo { start := s0, endPos := e0, dir := none }
      = { start := s0 + totalLen (nodes.take (ai - k)) + ao,
          endPos := e0 + totalLen (nodes.take (fi - k)) + fo,
          dir := some (dirOf ai ao fi fo) } := by
  induction nodes generalizing k s0 e0 with
  | nil => simp at hai
  | cons t rest ih =>
    simp only [saveLoop]
    by_cases h1 : k = ai ∧ k = fi
    · rw [if_pos h1]
      have hA : ai - k = 0 := by omega
      have hF : fi - k = 0 := by omega
      have hd : dirOf ai ao fi fo = if ao ≤ fo then Dir.fwd else Dir.bwd := by
        unfold dirOf
        rw [if_pos (by omega)]
      rw [hA, hF, List.take_zero, hd]
      simp [totalLen_nil, Position.mk.injEq]
    · rw [if_neg h1]
      by_cases h2 : k = ai
      · rw [if_pos h2]
        simp only [saveAccum_fwd]
        rw [saveLoop_fwd rest (k + 1) ai ao fi fo (s0 + ao) (e0 + t.length)
          (by omega) (by omega) (by simp only [List.length_cons] at hfi; omega)]
        have hA : ai - k = 0 := by omega
        have hF : fi - k = (fi - (k + 1)) + 1 := by omega
        have hd : dirOf ai ao fi fo = Dir.fwd := by
          unfold dirOf
          rw [if_neg (by omega), if_pos (by omega)]
        rw [hA, hF, List.take_zero, List.take_succ_cons, totalLen_cons, hd]
        simp only [Position.mk.injEq, totalLen_nil, true_and, and_true]
        push_cast
        omega
      · by_cases h3 : k = fi
        · rw [if_neg h2, if_pos h3]
          simp only [saveAccum_bwd]
          rw [saveLoop_bwd rest (k + 1) ai ao fi fo (s0 + t.length) (e0 + fo)
            (by omega) (by omega) (by simp only [List.length_cons] at hai; omega)]
          have hA : ai - k = (ai - (k + 1)) + 1 := by omega
          have hF : fi - k = 0 := by omega
          have hd : dirOf ai ao fi fo = Dir.bwd := by
            unfold dirOf
            rw [if_neg (by omega), if_neg (by omega)]
          rw [hA, hF, List.take_zero, List.take_succ_cons, totalLen_cons, hd]
          simp only [Position.mk.injEq, totalLen_nil, true_and, and_true]
          push_cast
          omega
        · rw [if_neg h2, if_neg h3]
          simp only [saveAccum_none]
          rw [ih (k + 1) (s0 + t.length) (e0 + t.length) (by omega) (by omega)
            (by simp only [List.length_cons] at hai; omega)
            (by simp only [List.length_cons] at hfi; omega)]
          have hA : ai - k = (ai - (k + 1)) + 1 := by omega
          have hF : fi - k = (fi - (k + 1)) + 1 := by omega
          rw [hA, hF, List.take_succ_cons, List.take_succ_cons, totalLen_cons, totalLen_cons]
          simp only [Position.mk.injEq, totalLen_nil, true_and, and_true]
          push_cast
          omega

theorem save_spec (nodes : List Str) (a f : SelPoint)
    (ha : a.1 < nodes.length) (hf : f.1 < nodes.length) :
    save nodes a f
      = { start := absIdx nodes a.1 a.2, endPos := absIdx nodes f.1 f.2,
          dir := some (dirOf a.1 a.2 f.1 f.2) } := by
  unfold save
  rw [saveLoop_none nodes 0 a.1 a.2 f.1 f.2 0 0 (by omega) (by omega)
    (by omega) (by omega)]
  simp only [Nat.sub_zero, absIdx, Position.mk.injEq, true_and, and_true]
  push_cast
  omega

/-! ## Characterisation of the restore walk -/

theorem findLoop_some_spec (nodes : List Str) (k current s e : Nat) (p : Nat × Nat)
    (hs : s < current) (hce : current ≤ e) :
    (findLoop nodes k current s e (some p)).1 = some p
    ∧ (e < current + totalLen nodes →
        ∃ j off, (findLoop nodes k current s e (some p)).2 = some (k + j, off)
          ∧ j < nodes.length ∧ current + totalLen (nodes.take j) + off = e)
    ∧ (current + totalLen nodes ≤ e →
        (findLoop nodes k current s e (some p)).2 = none) := by
  induction nodes generalizing k current with
  | nil =>
    refine ⟨rfl, ?_, fun _ => rfl⟩
    intro hlt
    rw [totalLen_nil] at hlt
    omega
  | cons t rest ih =>
    simp only [findLoop]
    rw [if_pos (by omega)]
    simp only [Option.getD_some]
    by_cases he : current + t.length > e
    · rw [if_pos he]
      refine ⟨rfl, ?_, ?_⟩
      · intro _
        exact ⟨0, e - current, by simp, by simp, by rw [List.take_zero, totalLen_nil]; omega⟩
      · intro hge
        rw [totalLen_cons] at hge
        omega
    · rw [if_neg he]
      obtain ⟨ih1, ih2, ih3⟩ := ih (k + 1) (current + t.length) (by omega) (by omega)
      refine ⟨ih1, ?_, ?_⟩
      · intro hlt
        rw [totalLen_cons] at hlt
        obtain ⟨j, off, hj1, hj2, hj3⟩ := ih2 (by omega)
        refine ⟨j + 1, off, ?_, by simp; omega, ?_⟩
        · rw [show k + (j + 1) = k + 1 + j from by omega]
          exact hj1
        · rw [List.take_succ_cons, totalLen_cons]
          omega
      · intro hge
        rw [totalLen_cons] at hge
        exact ih3 (by omega)

theorem findLoop_none_spec (nodes : List Str) (k current s e : Nat)
    (hcs : current ≤ s) (hse : s ≤ e) :
    ((s < current + totalLen nodes →
        ∃ j off, (findLoop nodes k current s e none).1 = some (k + j, off)
          ∧ j < nodes.length ∧ current + totalLen (nodes.take j) + off = s)
      ∧ (current + totalLen nodes ≤ s → (findLoop nodes k current s e none).1 = none))
    ∧ ((e < current + totalLen nodes →
        ∃ j off, (findLoop nodes k current s e none).2 = some (k + j, off)
          ∧ j < nodes.length ∧ current + totalLen (nodes.take j) + off = e)
      ∧ (current + totalLen nodes ≤ e → (findLoop nodes k current s e none).2 = none)) := by
  induction nodes generalizing k current with
  | nil =>
    refine ⟨⟨?_, fun _ => rfl⟩, ?_, fun _ => rfl⟩ <;>
      intro hlt <;> rw [totalLen_nil] at hlt <;> omega
  | cons t rest ih =>
    simp only [findLoop]
    by_cases hgt : current + t.length > s
    · rw [if_pos hgt]
      simp only [Option.getD_none]
      by_cases he : current + t.length > e
      · rw [if_pos he]
        refine ⟨⟨?_, ?_⟩, ?_, ?_⟩
        · intro _
          exact ⟨0, s - current, by simp, by simp, by rw [List.take_zero, totalLen_nil]; omega⟩
        · intro hge
          rw [totalLen_cons] at hge
          omega
        · intro _
          exact ⟨0, e - current, by simp, by simp, by rw [List.take_zero, totalLen_nil]; omega⟩
        · intro hge
          rw [totalLen_cons] at hge
          omega
      · rw [if_neg he]
        obtain ⟨hs1, hs2, hs3⟩ :=
          findLoop_some_spec rest (k + 1) (current + t.length) s e (k, s - current)
            (by omega) (by omega)
        refine ⟨⟨?_, ?_⟩, ?_, ?_⟩
        · intro _
          exact ⟨0, s - current, by rw [hs1]; simp, by simp, by rw [List.take_zero, totalLen_nil]; omega⟩
        · intro hge
          rw [totalLen_cons] at hge
          omega
        · intro hlt
          rw [totalLen_cons] at hlt
          obtain ⟨j, off, hj1, hj2, hj3⟩ := hs2 (by omega)
          refine ⟨j + 1, off, ?_, by simp; omega, ?_⟩
          · rw [show k + (j + 1) = k + 1 + j from by omega]
            exact hj1
          · rw [List.take_succ_cons, totalLen_cons]
            omega
        · intro hge
          rw [totalLen_cons] at hge
          exact hs3 (by omega)
    · rw [if_neg hgt]
      obtain ⟨⟨ihs1, ihs2⟩, ihe1, ihe2⟩ := ih (k + 1) (current + t.length) (by omega)
      refine ⟨⟨?_, ?_⟩, ?_, ?_⟩
      · intro hlt
        rw [totalLen_cons] at hlt
        obtain ⟨j, off, hj1, hj2, hj3⟩ := ihs1 (by omega)
        refine ⟨j + 1, off, ?_, by simp; omega, ?_⟩
        · rw [show k + (j + 1) = k + 1 + j from by omega]
          exact hj1
        · rw [List.take_succ_cons, totalLen_cons]
          omega
      · intro hge
        rw [totalLen_cons] at hge
        exact ihs2 (by omega)
      · intro hlt
        rw [totalLen_cons] at hlt
        obtain ⟨j, off, hj1, hj2, hj3⟩ := ihe1 (by omega)
        refine ⟨j + 1, off, ?_, by simp; omega, ?_⟩
        · rw [show k + (j + 1) = k + 1 + j from by omega]
          exact hj1
        · rw [List.take_succ_cons, totalLen_cons]
          omega
      · intro hge
        rw [totalLen_cons] at hge
        exact ihe2 (by omega)

theorem restoreMutate_some_nonneg (pos : Position) (d : Dir)
    (hd : pos.dir = some d) (hs : 0 ≤ pos.start) (he : 0 ≤ pos.endPos) :
    restoreMutate pos
      = if d = Dir.bwd then { start := pos.endPos, endPos := pos.start, dir := some d }
        else pos := by
  obtain ⟨ps, pe, pd⟩ := pos
  simp only at hd hs he
  subst hd
  simp only [restoreMutate]
  cases d <;> split_ifs <;> simp_all [Position.mk.injEq] <;> omega

theorem restorePoints_abs (nodes : List Str) (pos : Position) (d : Dir)
    (hs0 : 0 ≤ pos.start) (he0 : 0 ≤ pos.endPos) (hd : pos.dir = some d)
    (hord : if d = Dir.bwd then pos.endPos ≤ pos.start else pos.start ≤ pos.endPos) :
    rpointAbs nodes (restorePoints nodes pos).1 = min pos.start.toNat (totalLen nodes)
    ∧ rpointAbs nodes (restorePoints nodes pos).2 = min pos.endPos.toNat (totalLen nodes) := by
  have hwalk : ∀ s e : Nat, s ≤ e →
      rpointAbs nodes (toRPoint (findLoop nodes 0 0 s e none).1) = min s (totalLen nodes)
      ∧ rpointAbs nodes (toRPoint (findLoop nodes 0 0 s e none).2) = min e (totalLen nodes) := by
    intro s e hse
    obtain ⟨⟨hf1, hf2⟩, hf3, hf4⟩ := findLoop_none_spec nodes 0 0 s e (by omega) hse
    constructor
    · by_cases hlt : s < totalLen nodes
      · obtain ⟨j, off, hj1, hj2, hj3⟩ := hf1 (by omega)
        rw [hj1]
        simp only [toRPoint, rpointAbs, absIdx, Nat.zero_add]
        omega
      · rw [hf2 (by omega)]
        simp only [toRPoint, rpointAbs]
        omega
    · by_cases hlt : e < totalLen nodes
      · obtain ⟨j, off, hj1, hj2, hj3⟩ := hf3 (by omega)
        rw [hj1]
        simp only [toRPoint, rpointAbs, absIdx, Nat.zero_add]
        omega
      · rw [hf4 (by omega)]
        simp only [toRPoint, rpointAbs]
        omega
  unfold restorePoints
  rw [restoreMutate_some_nonneg pos d hd hs0 he0]
  cases d with
  | fwd =>
    rw [if_neg (by decide)] at hord
    simp only [if_neg (show ¬(Dir.fwd = Dir.bwd) from by decide), hd,
      if_neg (show ¬(some Dir.fwd = some Dir.bwd) from by decide)]
    exact ⟨(hwalk _ _ (by omega)).1, (hwalk _ _ (by omega)).2⟩
  | bwd =>
    rw [if_pos rfl] at hord
    simp only [eq_self_iff_true, if_true]
    exact ⟨(hwalk _ _ (by omega)).2, (hwalk _ _ (by omega)).1⟩

/-- C1: for every modelled editable-region tree (its text nodes in
document order) and every valid selection in it, `restore(save())`
reproduces an equivalent selection — the anchor and the focus land at
the same character offsets over the concatenated text, which preserves
the start/end offsets and the selection direction — and this holds when
`restore` runs on any tree with different node boundaries but identical
concatenated text (the highlighter's rewrite). -/
theorem c1_save_restore_roundtrip (nodes nodesR : List Str) (a f : SelPoint)
    (hva : ValidPoint nodes a) (hvf : ValidPoint nodes f)
    (htext : nodesR.flatten = nodes.flatten) :
    restoreAnchorAbs nodesR (save nodes a f) = absIdx nodes a.1 a.2
    ∧ restoreFocusAbs nodesR (save nodes a f) = absIdx nodes f.1 f.2 := by
  obtain ⟨ha1, ha2⟩ := hva
  obtain ⟨hf1, hf2⟩ := hvf
  have htot : totalLen nodesR = totalLen nodes := by
    rw [totalLen_eq_flatten_length, totalLen_eq_flatten_length, htext]
  have hA := absIdx_le_totalLen nodes a ⟨ha1, ha2⟩
  have hF := absIdx_le_totalLen nodes f ⟨hf1, hf2⟩
  have hsave := save_spec nodes a f ha1 hf1
  have hord : if dirOf a.1 a.2 f.1 f.2 = Dir.bwd
      then (absIdx nodes f.1 f.2 : Int) ≤ absIdx nodes a.1 a.2
      else (absIdx nodes a.1 a.2 : Int) ≤ absIdx nodes f.1 f.2 := by
    unfold dirOf
    by_cases h1 : a.1 = f.1
    · rw [if_pos h1]
      by_cases h2 : a.2 ≤ f.2
      · rw [if_pos h2, if_neg (by decide)]
        unfold absIdx
        rw [h1]
        push_cast
        omega
      · rw [if_neg h2, if_pos rfl]
        unfold absIdx
        rw [h1]
        push_cast
        omega
    · rw [if_neg h1]
      by_cases h2 : a.1 < f.1
      · rw [if_pos h2, if_neg (by decide)]
        have hm := @absIdx_mono nodes a.1 f.1 a.2 f.2 h2 ha1 ha2
        omega
      · rw [if_neg h2, if_pos rfl]
        have hm := @absIdx_mono nodes f.1 a.1 f.2 a.2 (by omega) hf1 hf2
        omega
  unfold restoreAnchorAbs restoreFocusAbs
  rw [hsave]
  have hspec := restorePoints_abs nodesR
    { start := absIdx nodes a.1 a.2, endPos := absIdx nodes f.1 f.2,
      dir := some (dirOf a.1 a.2 f.1 f.2) }
    (dirOf a.1 a.2 f.1 f.2) (Int.natCast_nonneg _) (Int.natCast_nonneg _) rfl hord
  rw [hspec.1, hspec.2, Int.toNat_natCast, Int.toNat_natCast]
  constructor <;> omega

/-- C1 witness: the round-trip theorem applied to the tree with text
nodes `ab`, `cd`, a backward selection (anchor in the second node,
focus in the first), and the highlighter-rewritten tree `abc`, `d` with
the same concatenated text `abcd`. -/
theorem c1_save_restore_roundtrip_witness :
    restoreAnchorAbs ["abc".toList, "d".toList]
        (save ["ab".toList, "cd".toList] (1, 1) (0, 1))
      = absIdx ["ab".toList, "cd".toList] 1 1
    ∧ restoreFocusAbs ["abc".toList, "d".toList]
        (save ["ab".toList, "cd".toList] (1, 1) (0, 1))
      = absIdx ["ab".toList, "cd".toList] 0 1 :=
  c1_save_restore_roundtrip ["ab".toList, "cd".toList] ["abc".toList, "d".toList]
    (1, 1) (0, 1) (by decide) (by decide) (by decide)
